import Mathlib

/-!
Formal model of `src/main.py` of the Academic-Recommender repository.

External effects — the question-answering model, the NLTK sentence/word
tokenizers and stop-word data, the two OpenAlex HTTP endpoints and the
pycountry country table — are modelled as explicit function parameters
(oracles).  Python integers are modelled as `Int`, Python floats as `Rat`,
and a Python runtime fault (an uncaught exception such as
`ZeroDivisionError`) as `none` in an `Option` result.
-/

namespace AcademicRecommender

/-- An institution object inside an OpenAlex author record
(`last_known_institution`); the script only reads `display_name`. -/
structure Institution where
  display_name : String
  deriving DecidableEq

/-- A raw author object of the OpenAlex authors endpoint, restricted to the
fields read by `get_authors` (src/main.py lines 142-153).  The JSON field
`summary_stats.2yr_mean_citedness` is `two_yr_mean_citedness` here, and a
missing or null `last_known_institution` is `none`. -/
structure ApiAuthor where
  display_name : String
  cited_by_count : Int
  works_count : Int
  two_yr_mean_citedness : Rat
  last_known_institution : Option Institution
  deriving DecidableEq

/-- The author dictionary built by `get_authors` (src/main.py lines 143-153).
The Python key `2yr_mean_citedness` is `two_yr_mean_citedness` here. -/
structure Author where
  display_name : String
  cited_by_count : Int
  works_count : Int
  citing_score : Rat
  two_yr_mean_citedness : Rat
  association : String
  deriving DecidableEq

/-- A concept dictionary as built by `get_concepts` (src/main.py line 115). -/
structure Concept where
  id : String
  display_name : String
  relevance_score : Rat
  description : String
  cited_by_count : Int
  deriving DecidableEq

/-- The filter expression built for one concept (src/main.py lines 136-138):
it always contains the concept id and, when a country code is given, the
`last_known_institution.country_code` part. -/
def author_filter_expr (concept : Concept) (country_code : Option String) : String :=
  let f := "filter=concept.id:" ++ concept.id
  match country_code with
  | some cc => f ++ ",last_known_institution.country_code:" ++ cc
  | none => f

/-- The full request URL of the authors endpoint (src/main.py line 141). -/
def author_request_url (concept : Concept) (country_code : Option String) : String :=
  "https://api.openalex.org/authors?" ++ author_filter_expr concept country_code ++
    "&per-page=100&sort=cited_by_count:desc"

/-- Building one author dictionary from a raw API record
(src/main.py lines 143-154).  The division
`a['cited_by_count'] / a['works_count']` is Python float division and raises
`ZeroDivisionError` when `works_count` is zero; that fault is `none`. -/
def build_author (a : ApiAuthor) : Option Author :=
  if a.works_count = 0 then none
  else
    some
      { display_name := a.display_name
        cited_by_count := a.cited_by_count
        works_count := a.works_count
        citing_score := (a.cited_by_count : Rat) / (a.works_count : Rat)
        two_yr_mean_citedness := a.two_yr_mean_citedness
        association :=
          match a.last_known_institution with
          | some lki => lki.display_name
          | none => "No institution" }

/-- The accumulation loop of `get_authors` over all fetched raw records
(src/main.py lines 142-154): records are converted in order and appended to
`all_authors`; the first record with zero `works_count` faults the run. -/
def build_authors : List ApiAuthor → Option (List Author)
  | [] => some []
  | a :: rest =>
    match build_author a with
    | none => none
    | some hd =>
      match build_authors rest with
      | none => none
      | some tl => some (hd :: tl)

/-- All raw author records fetched by `get_authors`: one request per concept,
in concept order, results concatenated (src/main.py lines 133-141).
`fetch` is the network oracle, consuming the request URL. -/
def fetched_authors (fetch : String → List ApiAuthor) (concepts : List Concept)
    (country_code : Option String) : List ApiAuthor :=
  (concepts.map fun c => fetch (author_request_url c country_code)).flatten

/-- The comparison underlying `sorted(all_authors, key=lambda x: (-1 * x["2yr_mean_citedness"], -1 * x["cited_by_count"]))`
(src/main.py line 157): lexicographic order on the key tuple. -/
def author_le (a b : Author) : Prop :=
  -1 * a.two_yr_mean_citedness < -1 * b.two_yr_mean_citedness ∨
    (-1 * a.two_yr_mean_citedness = -1 * b.two_yr_mean_citedness ∧
      -1 * a.cited_by_count ≤ -1 * b.cited_by_count)

instance : DecidableRel author_le := fun a b => by
  unfold author_le
  infer_instance

instance : IsTotal Author author_le := by
  constructor
  intro a b
  rcases lt_trichotomy (-1 * a.two_yr_mean_citedness) (-1 * b.two_yr_mean_citedness) with h | h | h
  · exact Or.inl (Or.inl h)
  · rcases le_total (-1 * a.cited_by_count) (-1 * b.cited_by_count) with h2 | h2
    · exact Or.inl (Or.inr ⟨h, h2⟩)
    · exact Or.inr (Or.inr ⟨h.symm, h2⟩)
  · exact Or.inr (Or.inl h)

instance : IsTrans Author author_le := by
  constructor
  intro a b c hab hbc
  rcases hab with h1 | ⟨h1, h2⟩ <;> rcases hbc with h3 | ⟨h3, h4⟩
  · exact Or.inl (lt_trans h1 h3)
  · exact Or.inl (h3 ▸ h1)
  · exact Or.inl (h1 ▸ h3)
  · exact Or.inr ⟨h1.trans h3, h2.trans h4⟩

/-- `get_authors` (src/main.py lines 118-157): fetch raw records for every
concept, build the author dictionaries, and sort by
`(-two_yr_mean_citedness, -cited_by_count)`.  Python `sorted` is a stable
sort, modelled by the stable `List.insertionSort`. -/
def get_authors (fetch : String → List ApiAuthor) (concepts : List Concept)
    (country_code : Option String) : Option (List Author) :=
  (build_authors (fetched_authors fetch concepts country_code)).map
    fun all_authors => all_authors.insertionSort author_le

lemma build_author_some {a : ApiAuthor} {auth : Author}
    (h : build_author a = some auth) :
    a.works_count ≠ 0 ∧
      auth.cited_by_count = a.cited_by_count ∧
      auth.works_count = a.works_count ∧
      auth.citing_score = (a.cited_by_count : Rat) / (a.works_count : Rat) ∧
      auth.association =
        (match a.last_known_institution with
         | some lki => lki.display_name
         | none => "No institution") := by
  unfold build_author at h
  by_cases hw : a.works_count = 0
  · simp [hw] at h
  · simp [hw] at h
    subst h
    exact ⟨hw, rfl, rfl, rfl, rfl⟩

lemma build_authors_mem {xs : List ApiAuthor} {l : List Author}
    (h : build_authors xs = some l) {auth : Author} (ha : auth ∈ l) :
    ∃ x ∈ xs, build_author x = some auth := by
  induction xs generalizing l with
  | nil =>
    unfold build_authors at h
    simp at h
    subst h
    simp at ha
  | cons a rest ih =>
    unfold build_authors at h
    cases hha : build_author a with
    | none => rw [hha] at h; exact absurd h (by simp)
    | some hd =>
      rw [hha] at h
      cases hhr : build_authors rest with
      | none => rw [hhr] at h; exact absurd h (by simp)
      | some tl =>
        rw [hhr] at h
        simp at h
        subst h
        rcases List.mem_cons.mp ha with rfl | hmem
        · exact ⟨a, List.mem_cons_self a rest, hha⟩
        · obtain ⟨x, hx, hbx⟩ := ih hhr hmem
          exact ⟨x, List.mem_cons_of_mem a hx, hbx⟩

lemma build_authors_none_iff (xs : List ApiAuthor) :
    build_authors xs = none ↔ ∃ x ∈ xs, x.works_count = 0 := by
  induction xs with
  | nil => simp [build_authors]
  | cons a rest ih =>
    unfold build_authors
    by_cases hw : a.works_count = 0
    · simp [build_author, hw]
    · cases hhr : build_authors rest with
      | none =>
        rw [hhr] at ih
        simp [build_author, hw]
        exact ih.mp rfl
      | some tl =>
        have hno : ¬∃ x ∈ rest, x.works_count = 0 := by
          intro hex
          rw [ih.mpr hex] at hhr
          exact absurd hhr (by simp)
        simp [build_author, hw]
        intro x hx hx0
        exact hno ⟨x, hx, hx0⟩

lemma build_authors_length {xs : List ApiAuthor} {l : List Author}
    (h : build_authors xs = some l) : l.length = xs.length := by
  induction xs generalizing l with
  | nil =>
    unfold build_authors at h
    simp at h
    subst h
    rfl
  | cons a rest ih =>
    unfold build_authors at h
    cases hha : build_author a with
    | none => rw [hha] at h; exact absurd h (by simp)
    | some hd =>
      rw [hha] at h
      cases hhr : build_authors rest with
      | none => rw [hhr] at h; exact absurd h (by simp)
      | some tl =>
        rw [hhr] at h
        simp at h
        subst h
        simp [ih hhr]

/-- Python `word.lower()` applied character-wise (the script only compares
lower-cased tokens against the stop-word set). -/
def str_lower (s : String) : String := String.mk (s.data.map Char.toLower)

/-- The token loop of `remove_stop_words` for a single phrase
(src/main.py lines 87-96): walk the word tokens, accumulating the current
run of non-stop-words in `current` (`current_topic`); on a stop-word (or at
the end) a non-empty run is emitted. -/
def split_runs (stop_words : List String) : List String → List String → List (List String)
  | [], current => if current.length > 0 then [current] else []
  | w :: ws, current =>
    if str_lower w ∈ stop_words then
      (if current.length > 0 then [current] else []) ++ split_runs stop_words ws []
    else
      split_runs stop_words ws (current ++ [w])

/-- Python `" ".join(topic)` (src/main.py line 98). -/
def join_spaces : List String → String
  | [] => ""
  | [w] => w
  | w :: ws => w ++ " " ++ join_spaces ws

/-- `remove_stop_words` (src/main.py lines 69-99).  `sw` is the external
NLTK english stop-word list and `word_tokenize` the external NLTK word
tokenizer; the set is extended with the punctuation marks '.', ',', ';'. -/
def remove_stop_words (sw : List String) (word_tokenize : String → List String)
    (topics : List String) : List String :=
  let stop_words := sw ++ [".", ",", ";"]
  let all_topics :=
    (topics.map fun topic => split_runs stop_words (word_tokenize topic) []).flatten
  all_topics.map join_spaces

/-- One QA-model response: `{answer, score}` (spec section 3). -/
structure Answer where
  answer : String
  score : Rat
  deriving DecidableEq

/-- The per-sentence answers collected by `anwser_question`
(src/main.py lines 45-49): the context is sentence-split and the model is
asked the question once per sentence. -/
def qa_answers (qa_model : String → String → Answer) (sent_tokenize : String → List String)
    (context question : String) : List Answer :=
  (sent_tokenize context).map fun c => qa_model question c

/-- `anwser_question` (sic, src/main.py lines 35-54): keep the answers with
`score > 0.15`, project to their texts, and strip stop words. -/
def anwser_question (qa_model : String → String → Answer)
    (sent_tokenize : String → List String) (sw : List String)
    (word_tokenize : String → List String) (context question : String) : List String :=
  let answers := qa_answers qa_model sent_tokenize context question
  let infos := (answers.filter fun a => decide ((0.15 : Rat) < a.score)).map Answer.answer
  remove_stop_words sw word_tokenize infos

/-- `extract_information` (src/main.py lines 57-67). -/
def extract_information (qa_model : String → String → Answer)
    (sent_tokenize : String → List String) (sw : List String)
    (word_tokenize : String → List String) (context : String) :
    List String × List String :=
  (anwser_question qa_model sent_tokenize sw word_tokenize context
      "What am I interested in?",
    anwser_question qa_model sent_tokenize sw word_tokenize context
      "Which country am I interested in?")

/-- A pycountry country record; the script reads `alpha_2` and `name`. -/
structure Country where
  alpha_2 : String
  name : String
  deriving DecidableEq

/-- `convert_location_to_alpha2` (src/main.py lines 159-169).  `pyc_get` is
the external pycountry name lookup; unresolvable names yield `none` and are
dropped; an empty filtered list becomes the sentinel `[none]`. -/
def convert_location_to_alpha2 (pyc_get : String → Option Country)
    (countries : List String) : List (Option String) :=
  let codes := countries.map pyc_get
  let filtered_codes := codes.filterMap fun code => code.map Country.alpha_2
  if filtered_codes.length > 0 then filtered_codes.map some else [none]

/-- `get_concepts` (src/main.py lines 101-116): the concept-search endpoint
is the oracle `search`; the script projects each raw result onto the five
`Concept` fields verbatim, so the oracle returns `Concept` records. -/
def get_concepts (search : String → List Concept) (topic : String) : List Concept :=
  search topic

/-- `print_authors` (src/main.py lines 171-187), modelled as the list of
printed lines.  `pyc_name` is the pycountry alpha-2-to-name lookup used for
the country header. -/
def print_authors (pyc_name : String → String) (authors : List Author)
    (country_code : Option String) : List String :=
  (match country_code with
   | some code => ["\nIn " ++ pyc_name code ++ ":"]
   | none => []) ++
  (authors.map fun author =>
    ["\n" ++ author.display_name ++ " - " ++ author.association,
      "   • Avg number of citations last 2yrs:  " ++ toString author.two_yr_mean_citedness,
      "   • Number of works:  " ++ toString author.works_count,
      "   • Number of citations:  " ++ toString author.cited_by_count,
      "   • Citing score:  " ++ toString author.citing_score]).flatten

/-- The body of the driver loop for one topic and one country code
(src/main.py lines 206-210): fetch authors for the first 5 concepts, print
the first 5 authors. -/
def run_topic_country (fetch : String → List ApiAuthor) (pyc_name : String → String)
    (concepts : List Concept) (country_code : Option String) : Option (List String) :=
  (get_authors fetch (concepts.take 5) country_code).map
    fun authors => print_authors pyc_name (authors.take 5) country_code

/-- Modelled from the spec: the pycountry static country-data table is not
part of the repository; only the entries exercised by the spec's examples
(Germany, Italy, France) are modelled, with unknown names unresolvable. -/
def pycountry_get_by_name : String → Option Country := fun n =>
  if n = "Germany" then some ⟨"DE", "Germany"⟩
  else if n = "Italy" then some ⟨"IT", "Italy"⟩
  else if n = "France" then some ⟨"FR", "France"⟩
  else none

/-- Modelled from the spec: the NLTK english stop-word list is external data
not contained in the repository; this fragment of it suffices for the
claims (in particular it contains "the" and none of "quick", "brown",
"fox"). -/
def nltk_english_stop_words : List String :=
  ["i", "me", "my", "we", "our", "you", "he", "she", "it", "they", "them",
    "what", "which", "who", "this", "that", "am", "is", "are", "was", "were",
    "be", "been", "a", "an", "the", "and", "but", "if", "or", "as", "of",
    "at", "by", "for", "with", "in", "on", "to", "from", "not", "no"]

/-- Splitting a character list on spaces, dropping empty pieces (helper for
the modelled word tokenizer below). -/
def split_on_space_chars : List Char → List Char → List String
  | [], current => if current.length > 0 then [String.mk current] else []
  | c :: cs, current =>
    if c = ' ' then
      (if current.length > 0 then [String.mk current] else []) ++ split_on_space_chars cs []
    else
      split_on_space_chars cs (current ++ [c])

/-- Modelled from the spec: the NLTK word tokenizer is external; on the
plain space-separated phrases appearing in the claims it splits on single
spaces. -/
def nltk_word_tokenize (s : String) : List String :=
  split_on_space_chars s.data []

/-- The resolvable country names mapped to their alpha-2 codes in input
order, unresolvable names dropped (the spec's description of
`convert_location_to_alpha2` before the empty-result fallback). -/
def resolved_codes (pyc_get : String → Option Country) : List String → List String
  | [] => []
  | c :: rest =>
    match pyc_get c with
    | some country => country.alpha_2 :: resolved_codes pyc_get rest
    | none => resolved_codes pyc_get rest

/-! ## Claim theorems -/

/-- C1: For every list of concepts and every country code, the list returned
by `get_authors` is sorted so that `2yr_mean_citedness` is non-increasing,
and any two adjacent authors with equal `2yr_mean_citedness` are ordered
with `cited_by_count` non-increasing. -/
theorem get_authors_sorted_by_key (fetch : String → List ApiAuthor)
    (concepts : List Concept) (country_code : Option String) (l : List Author)
    (h : get_authors fetch concepts country_code = some l) :
    l.Pairwise fun a b =>
      b.two_yr_mean_citedness ≤ a.two_yr_mean_citedness ∧
        (a.two_yr_mean_citedness = b.two_yr_mean_citedness →
          b.cited_by_count ≤ a.cited_by_count) := by
  unfold get_authors at h
  cases hb : build_authors (fetched_authors fetch concepts country_code) with
  | none => rw [hb] at h; exact absurd h (by simp)
  | some pre =>
    rw [hb] at h
    simp only [Option.map_some'] at h
    have hp : l.Pairwise author_le := by
      rw [← Option.some_inj.mp h]
      exact List.sorted_insertionSort author_le pre
    refine hp.imp ?_
    intro a b hab
    rcases hab with h1 | ⟨h1, h2⟩
    · exact ⟨by linarith, fun he => by rw [he] at h1; linarith⟩
    · exact ⟨by linarith, fun _ => by linarith⟩

/-- C2: Every author record in the output of `get_authors` has
`citing_score` equal to exactly `cited_by_count / works_count` (with
`works_count` nonzero for every returned author). -/
theorem get_authors_citing_score (fetch : String → List ApiAuthor)
    (concepts : List Concept) (country_code : Option String) (l : List Author)
    (h : get_authors fetch concepts country_code = some l) (a : Author)
    (ha : a ∈ l) :
    a.works_count ≠ 0 ∧
      a.citing_score = (a.cited_by_count : Rat) / (a.works_count : Rat) := by
  unfold get_authors at h
  cases hb : build_authors (fetched_authors fetch concepts country_code) with
  | none => rw [hb] at h; exact absurd h (by simp)
  | some pre =>
    rw [hb] at h
    simp only [Option.map_some'] at h
    rw [← Option.some_inj.mp h] at ha
    have hmem : a ∈ pre := (List.mem_insertionSort author_le).mp ha
    obtain ⟨x, _, hbx⟩ := build_authors_mem hb hmem
    obtain ⟨hw, hc, hwc, hcs, _⟩ := build_author_some hbx
    refine ⟨by rw [hwc]; exact hw, ?_⟩
    rw [hcs, hc, hwc]

/-- C3: `get_authors` divides without a guard: it faults (modelled as
`none`) exactly when some fetched raw record has `works_count = 0`; in
particular when every fetched record has nonzero `works_count` the division
never faults. -/
theorem get_authors_none_iff_zero_works (fetch : String → List ApiAuthor)
    (concepts : List Concept) (country_code : Option String) :
    get_authors fetch concepts country_code = none ↔
      ∃ a ∈ fetched_authors fetch concepts country_code, a.works_count = 0 := by
  unfold get_authors
  rw [Option.map_eq_none']
  exact build_authors_none_iff _

/-- C8: Every author record built by `get_authors` carries as `association`
the `display_name` of the raw record's `last_known_institution` when that
is present, and the string "No institution" otherwise. -/
theorem get_authors_association (fetch : String → List ApiAuthor)
    (concepts : List Concept) (country_code : Option String) (l : List Author)
    (h : get_authors fetch concepts country_code = some l) (auth : Author)
    (ha : auth ∈ l) :
    ∃ a ∈ fetched_authors fetch concepts country_code,
      build_author a = some auth ∧
        auth.association =
          (match a.last_known_institution with
           | some lki => lki.display_name
           | none => "No institution") := by
  unfold get_authors at h
  cases hb : build_authors (fetched_authors fetch concepts country_code) with
  | none => rw [hb] at h; exact absurd h (by simp)
  | some pre =>
    rw [hb] at h
    simp only [Option.map_some'] at h
    rw [← Option.some_inj.mp h] at ha
    have hmem : auth ∈ pre := (List.mem_insertionSort author_le).mp ha
    obtain ⟨x, hx, hbx⟩ := build_authors_mem hb hmem
    obtain ⟨_, _, _, _, hassoc⟩ := build_author_some hbx
    exact ⟨x, hx, hbx, hassoc⟩

/-- C10: `get_authors` deduplicates nothing: its output is a permutation of
the records built, one per fetched raw record, from the concatenation of
the per-concept result lists in concept order, and its length equals the
sum of the per-concept result lengths. -/
theorem get_authors_no_dedup (fetch : String → List ApiAuthor)
    (concepts : List Concept) (country_code : Option String) (l : List Author)
    (h : get_authors fetch concepts country_code = some l) :
    (∃ pre,
      build_authors (fetched_authors fetch concepts country_code) = some pre ∧
        l = pre.insertionSort author_le ∧ l.Perm pre ∧
        pre.length = (fetched_authors fetch concepts country_code).length) ∧
      l.length =
        (concepts.map fun c => (fetch (author_request_url c country_code)).length).sum := by
  unfold get_authors at h
  cases hb : build_authors (fetched_authors fetch concepts country_code) with
  | none => rw [hb] at h; exact absurd h (by simp)
  | some pre =>
    rw [hb] at h
    simp only [Option.map_some'] at h
    have hl : l = pre.insertionSort author_le := (Option.some_inj.mp h).symm
    have hperm : l.Perm pre := hl ▸ List.perm_insertionSort author_le pre
    have hlen : pre.length = (fetched_authors fetch concepts country_code).length :=
      build_authors_length hb
    refine ⟨⟨pre, rfl, hl, hperm, hlen⟩, ?_⟩
    rw [hperm.length_eq, hlen]
    unfold fetched_authors
    rw [List.length_flatten, List.map_map]
    rfl

lemma resolved_codes_eq_filterMap (pyc_get : String → Option Country)
    (countries : List String) :
    (countries.map pyc_get).filterMap (fun code => code.map Country.alpha_2) =
      resolved_codes pyc_get countries := by
  induction countries with
  | nil => rfl
  | cons c rest ih =>
    cases hc : pyc_get c <;> simp [resolved_codes, hc, ih]

/-- C4: `convert_location_to_alpha2` maps each resolvable name to its
alpha-2 code in input order, silently drops unresolvable names, and falls
back to the single-element list `[none]` when nothing resolves; the spec's
two examples hold for the modelled pycountry entries. -/
theorem convert_location_to_alpha2_spec (pyc_get : String → Option Country)
    (countries : List String) :
    (convert_location_to_alpha2 pyc_get countries =
      if resolved_codes pyc_get countries = [] then [none]
      else (resolved_codes pyc_get countries).map some) ∧
    convert_location_to_alpha2 pycountry_get_by_name ["Germany", "Tomato", "Italy"] =
      [some "DE", some "IT"] ∧
    convert_location_to_alpha2 pycountry_get_by_name ["Tomato"] = [none] := by
  refine ⟨?_, by decide, by decide⟩
  unfold convert_location_to_alpha2
  simp only []
  rw [resolved_codes_eq_filterMap]
  cases hr : resolved_codes pyc_get countries with
  | nil => simp
  | cons x xs => simp

/-- C5: in `anwser_question`, exactly the answers with score strictly above
0.15 survive the confidence filter and only their texts are passed on to
stop-word removal; an answer with score at most 0.15 never survives. -/
theorem anwser_question_score_threshold (qa_model : String → String → Answer)
    (sent_tokenize : String → List String) (sw : List String)
    (word_tokenize : String → List String) (context question : String) :
    (anwser_question qa_model sent_tokenize sw word_tokenize context question =
      remove_stop_words sw word_tokenize
        (((qa_answers qa_model sent_tokenize context question).filter fun a =>
            decide ((0.15 : Rat) < a.score)).map Answer.answer)) ∧
    (∀ a ∈ qa_answers qa_model sent_tokenize context question,
      a.score ≤ (0.15 : Rat) →
        a ∉ (qa_answers qa_model sent_tokenize context question).filter fun a =>
            decide ((0.15 : Rat) < a.score)) ∧
    (∀ s ∈ ((qa_answers qa_model sent_tokenize context question).filter fun a =>
          decide ((0.15 : Rat) < a.score)).map Answer.answer,
      ∃ a ∈ qa_answers qa_model sent_tokenize context question,
        (0.15 : Rat) < a.score ∧ a.answer = s) := by
  refine ⟨rfl, ?_, ?_⟩
  · intro a _ hle hmem
    have hgt := (List.mem_filter.mp hmem).2
    rw [decide_eq_true_eq] at hgt
    exact absurd hgt (not_lt.mpr hle)
  · intro s hs
    obtain ⟨a, hamem, has⟩ := List.mem_map.mp hs
    have h2 := List.mem_filter.mp hamem
    refine ⟨a, h2.1, ?_, has⟩
    have := h2.2
    rwa [decide_eq_true_eq] at this

lemma split_runs_all_stop (stop_words : List String) (ws : List String)
    (h : ∀ w ∈ ws, str_lower w ∈ stop_words) :
    split_runs stop_words ws [] = [] := by
  induction ws with
  | nil => rfl
  | cons w ws ih =>
    have hw := h w (List.mem_cons_self w ws)
    simp only [split_runs, hw, if_pos, List.length_nil, gt_iff_lt, lt_self_iff_false,
      if_false, List.nil_append]
    exact ih fun x hx => h x (List.mem_cons_of_mem w hx)

/-- C6: when every token of every input phrase lower-cases into the
stop-word set extended with '.', ',', ';', `remove_stop_words` returns the
empty list. -/
theorem remove_stop_words_all_stop (sw : List String)
    (word_tokenize : String → List String) (topics : List String)
    (h : ∀ t ∈ topics, ∀ w ∈ word_tokenize t,
      str_lower w ∈ sw ++ [".", ",", ";"]) :
    remove_stop_words sw word_tokenize topics = [] := by
  unfold remove_stop_words
  have hruns : ∀ t ∈ topics,
      split_runs (sw ++ [".", ",", ";"]) (word_tokenize t) [] = [] :=
    fun t ht => split_runs_all_stop _ _ (h t ht)
  have hflat : (topics.map fun topic =>
      split_runs (sw ++ [".", ",", ";"]) (word_tokenize topic) []).flatten = [] := by
    rw [List.flatten_eq_nil_iff]
    intro l hl
    obtain ⟨t, ht, rfl⟩ := List.mem_map.mp hl
    exact hruns t ht
  simp [hflat]

lemma split_runs_eq_splitOnP (stop_words : List String) (ws current : List String) :
    split_runs stop_words ws current =
      ((ws.splitOnP fun w => decide (str_lower w ∈ stop_words)).modifyHead
          fun r => current ++ r).filter fun r => decide (r ≠ []) := by
  induction ws generalizing current with
  | nil =>
    simp only [split_runs, List.splitOnP_nil, List.modifyHead_cons, List.append_nil]
    cases current <;> simp
  | cons w ws ih =>
    obtain ⟨r, rs, hsplit⟩ :
        ∃ r rs, (ws.splitOnP fun w => decide (str_lower w ∈ stop_words)) = r :: rs := by
      cases hs : ws.splitOnP fun w => decide (str_lower w ∈ stop_words) with
      | nil => exact absurd hs (List.splitOnP_ne_nil _ ws)
      | cons r rs => exact ⟨r, rs, rfl⟩
    by_cases hw : str_lower w ∈ stop_words
    · rw [split_runs]
      rw [if_pos hw, ih [], hsplit]
      simp only [List.splitOnP_cons, decide_eq_true_eq, if_pos hw, hsplit,
        List.modifyHead_cons, List.nil_append, List.append_nil, List.filter_cons]
      cases current <;> simp
    · rw [split_runs]
      rw [if_neg hw, ih (current ++ [w]), hsplit]
      simp only [List.splitOnP_cons, decide_eq_true_eq, if_neg hw, hsplit,
        List.modifyHead_cons, List.filter_cons, List.append_assoc, List.singleton_append]

/-- C7: `remove_stop_words` splits each phrase's token list at
stop-words/punctuation, keeps exactly the nonempty runs, space-joins each,
and concatenates over the phrases; in particular (for the modelled NLTK
tokenizer and stop words) `["the quick brown fox"]` yields
`["quick brown fox"]`. -/
theorem remove_stop_words_runs (sw : List String)
    (word_tokenize : String → List String) (topics : List String) :
    (remove_stop_words sw word_tokenize topics =
      ((topics.map fun t =>
          (((word_tokenize t).splitOnP fun w =>
              decide (str_lower w ∈ sw ++ [".", ",", ";"])).filter fun r =>
            decide (r ≠ [])).map join_spaces)).flatten) ∧
    remove_stop_words nltk_english_stop_words nltk_word_tokenize
        ["the quick brown fox"] = ["quick brown fox"] := by
  refine ⟨?_, by decide⟩
  unfold remove_stop_words
  simp only []
  rw [List.map_flatten]
  congr 1
  rw [List.map_map]
  congr 1
  funext t
  simp only [Function.comp_apply]
  rw [split_runs_eq_splitOnP]
  congr 1
  cases hs : (word_tokenize t).splitOnP fun w =>
      decide (str_lower w ∈ sw ++ [".", ",", ";"]) with
  | nil => rfl
  | cons r rs => simp

/-- C9: the driver loop body (src/main.py lines 206-210) passes at most the
first 5 resolved concepts to `get_authors` (only the first 5 concepts can
influence the result) and at most the first 5 sorted authors to
`print_authors`; both truncation constants are the literal 5. -/
theorem run_topic_country_truncation (fetch : String → List ApiAuthor)
    (pyc_name : String → String) (country_code : Option String) :
    (∀ c1 c2 : List Concept, c1.take 5 = c2.take 5 →
      run_topic_country fetch pyc_name c1 country_code =
        run_topic_country fetch pyc_name c2 country_code) ∧
    (∀ (concepts : List Concept) (authors : List Author),
      get_authors fetch (concepts.take 5) country_code = some authors →
        run_topic_country fetch pyc_name concepts country_code =
          some (print_authors pyc_name (authors.take 5) country_code) ∧
          (authors.take 5).length ≤ 5 ∧ (concepts.take 5).length ≤ 5) := by
  constructor
  · intro c1 c2 hc
    unfold run_topic_country
    rw [hc]
  · intro concepts authors h
    unfold run_topic_country
    rw [h]
    refine ⟨rfl, ?_, ?_⟩
    · rw [List.length_take]
      exact min_le_left _ _
    · rw [List.length_take]
      exact min_le_left _ _

/-! ## Witness inputs -/

/-- A concrete network oracle: the same two raw records for every URL. -/
def w_fetch : String → List ApiAuthor := fun _ =>
  [⟨"Alice", 10, 2, 3, some ⟨"Inst A"⟩⟩, ⟨"Bob", 5, 1, 4, none⟩]

/-- A concrete concept. -/
def w_concept : Concept := ⟨"C123", "Computer Science", 1, "desc", 7⟩

/-- The author record built from the Bob raw record. -/
def w_bob : Author := ⟨"Bob", 5, 1, 5, 4, "No institution"⟩

/-- The author record built from the Alice raw record. -/
def w_alice : Author := ⟨"Alice", 10, 2, 5, 3, "Inst A"⟩

/-- What `get_authors` returns on the concrete inputs. -/
def w_authors : List Author := [w_bob, w_alice]

lemma w_get_authors_eval :
    get_authors w_fetch [w_concept] (some "DE") = some w_authors := by
  simp [get_authors, w_fetch, fetched_authors, build_authors, build_author,
    List.insertionSort, List.orderedInsert, author_le, w_authors, w_bob, w_alice]
  norm_num

/-- A concrete pycountry alpha-2-to-name oracle. -/
def w_pyc_name : String → String := fun _ => "Germany"

/-- A concrete QA model: confident on sentence "s1", unconfident elsewhere. -/
def w_qa : String → String → Answer := fun _ c =>
  if c = "s1" then ⟨"Computer Science", 0.5⟩ else ⟨"noise", 0.1⟩

/-- A concrete sentence tokenizer producing two sentences. -/
def w_sent : String → List String := fun _ => ["s1", "s2"]

/-- The low-confidence answer produced by `w_qa` on sentence "s2". -/
def w_low : Answer := ⟨"noise", 0.1⟩

/-! ## Witness theorems -/

theorem get_authors_sorted_by_key_witness :
    w_authors.Pairwise (fun a b =>
      b.two_yr_mean_citedness ≤ a.two_yr_mean_citedness ∧
        (a.two_yr_mean_citedness = b.two_yr_mean_citedness →
          b.cited_by_count ≤ a.cited_by_count)) :=
  get_authors_sorted_by_key w_fetch [w_concept] (some "DE") w_authors
    w_get_authors_eval

theorem get_authors_citing_score_witness :
    w_bob.works_count ≠ 0 ∧
      w_bob.citing_score = (w_bob.cited_by_count : Rat) / (w_bob.works_count : Rat) :=
  get_authors_citing_score w_fetch [w_concept] (some "DE") w_authors
    w_get_authors_eval w_bob (by simp [w_authors])

theorem get_authors_association_witness :
    ∃ a ∈ fetched_authors w_fetch [w_concept] (some "DE"),
      build_author a = some w_bob ∧
        w_bob.association =
          (match a.last_known_institution with
           | some lki => lki.display_name
           | none => "No institution") :=
  get_authors_association w_fetch [w_concept] (some "DE") w_authors
    w_get_authors_eval w_bob (by simp [w_authors])

theorem get_authors_no_dedup_witness :
    (∃ pre,
      build_authors (fetched_authors w_fetch [w_concept] (some "DE")) = some pre ∧
        w_authors = pre.insertionSort author_le ∧ w_authors.Perm pre ∧
        pre.length = (fetched_authors w_fetch [w_concept] (some "DE")).length) ∧
      w_authors.length =
        (([w_concept] : List Concept).map fun c =>
          (w_fetch (author_request_url c (some "DE"))).length).sum :=
  get_authors_no_dedup w_fetch [w_concept] (some "DE") w_authors
    w_get_authors_eval

theorem anwser_question_score_threshold_witness :
    w_low ∉ (qa_answers w_qa w_sent "ctx" "q").filter fun a =>
        decide ((0.15 : Rat) < a.score) :=
  (anwser_question_score_threshold w_qa w_sent nltk_english_stop_words
      nltk_word_tokenize "ctx" "q").2.1 w_low
    (by simp [qa_answers, w_qa, w_sent, w_low])
    (by norm_num [w_low])

theorem remove_stop_words_all_stop_witness :
    remove_stop_words nltk_english_stop_words nltk_word_tokenize
      ["the and , ."] = [] :=
  remove_stop_words_all_stop nltk_english_stop_words nltk_word_tokenize
    ["the and , ."] (by decide)

theorem run_topic_country_truncation_witness :
    run_topic_country w_fetch w_pyc_name [w_concept] (some "DE") =
      some (print_authors w_pyc_name (w_authors.take 5) (some "DE")) ∧
      (w_authors.take 5).length ≤ 5 ∧
      (([w_concept] : List Concept).take 5).length ≤ 5 :=
  (run_topic_country_truncation w_fetch w_pyc_name (some "DE")).2 [w_concept]
    w_authors w_get_authors_eval

end AcademicRecommender
